import Mathlib

/-!
Verification development for the claude-grep repository (Go).

The Go sources are shallowly embedded: Go byte slices are modeled as
`List Char` (all byte-level operations in the claims act on ASCII data,
where byte values and unicode scalar values coincide), Go strings as
`String`, Go `int` as `Int` or `Nat` where noted, `float32`/`float64`
as `ℚ` (the floating-point similarity computation itself is abstracted
into a function parameter).  External collaborators of the core — the
`encoding/json` decoding of a transcript line, the filesystem, gob
decoding, `time.Parse`, and the embedding service — are abstracted as
explicit parameters; every piece of logic of the repository itself is
translated function by function from the source files.
-/

/-! ### Byte/char helpers (models of `bytes`/`strings` stdlib calls on ASCII data) -/

/-- ASCII lowering of one byte, the behaviour of `bytes.ToLower` /
`strings.ToLower` on ASCII input (the only inputs the claims exercise). -/
def lowerChar (c : Char) : Char :=
  if 'A' ≤ c ∧ c ≤ 'Z' then Char.ofNat (c.toNat + 32) else c

/-- Model of `strings.ToLower` on ASCII strings. -/
def lowerStr (s : String) : String :=
  (s.toList.map lowerChar).asString

/-- Does the second list start with the first?  (`bytes.HasPrefix`.) -/
def startsWith : List Char → List Char → Bool
  | [], _ => true
  | _ :: _, [] => false
  | a :: as, b :: bs => a = b && startsWith as bs

/-- Model of `bytes.Contains haystack needle`. -/
def containsSub (haystack needle : List Char) : Bool :=
  startsWith needle haystack ||
    match haystack with
    | [] => false
    | _ :: rest => containsSub rest needle

/-- Split a byte list on every occurrence of `sep`
(model of `bytes.Split` with a one-byte separator: `n` separators
produce `n+1` parts, empty parts included). -/
def splitOnChar (sep : Char) : List Char → List (List Char)
  | [] => [[]]
  | b :: rest =>
    if b = sep then [] :: splitOnChar sep rest
    else
      match splitOnChar sep rest with
      | [] => [[b]]
      | l :: ls => (b :: l) :: ls

/-- `bytes.Split(data, []byte("\n"))` from `parseJSONL`. -/
def splitLines (data : List Char) : List (List Char) :=
  splitOnChar '\n' data

/-- Model of `strings.TrimSuffix`. -/
def trimSuffix (s suf : String) : String :=
  if startsWith suf.toList.reverse s.toList.reverse then
    (s.toList.take (s.length - suf.length)).asString
  else s

/-! ### `path/filepath` models (Unix separator) -/

def isPathSep (c : Char) : Bool := c = '/'

/-- Model of `filepath.Base`. -/
def filepathBase (path : String) : String :=
  if path = "" then "." else
  let l := (path.toList.reverse.dropWhile isPathSep).reverse
  if l = [] then "/" else
  ((l.reverse.takeWhile (fun c => ¬ isPathSep c)).reverse).asString

/-- Scan helper for `filepathExt`: walks the reversed path, stops at a
path separator, returns the extension once the dot is found. -/
def extFromRev : List Char → List Char → String
  | [], _ => ""
  | c :: rest, acc =>
    if isPathSep c then ""
    else if c = '.' then (c :: acc).asString
    else extFromRev rest (c :: acc)

/-- Model of `filepath.Ext`: the suffix of the final element starting at
the final dot, or empty. -/
def filepathExt (path : String) : String :=
  extFromRev path.toList.reverse []

/-- Stack step of `filepath.Clean` (Unix): `""`/`"."` components vanish,
`".."` pops a component when possible (never past a leading run of `".."`
in a relative path, and never below the root in a rooted path), any other
component is pushed. -/
def cleanComponents (rooted : Bool) : List String → List String → List String
  | [], stack => stack
  | comp :: rest, stack =>
    if comp = "" ∨ comp = "." then cleanComponents rooted rest stack
    else if comp = ".." then
      if stack ≠ [] ∧ stack.getLast? ≠ some ".." then
        cleanComponents rooted rest stack.dropLast
      else if rooted then cleanComponents rooted rest stack
      else cleanComponents rooted rest (stack ++ [".."])
    else cleanComponents rooted rest (stack ++ [comp])

/-- Model of `filepath.Clean` on Unix paths (segment-stack formulation of
the same algorithm: identical output on every input). -/
def pathClean (path : String) : String :=
  if path = "" then "." else
  let rooted := path.toList.head? = some '/'
  let comps := (splitOnChar '/' path.toList).map List.asString
  let out := String.intercalate "/" (cleanComponents rooted comps [])
  if rooted then (if out = "" then "/" else "/" ++ out)
  else if out = "" then "." else out

/-- Model of `filepath.Dir`: everything up to and including the final
separator, cleaned. -/
def filepathDir (path : String) : String :=
  pathClean (((path.toList.reverse.dropWhile (fun c => ¬ isPathSep c)).reverse).asString)

/-! ### Data model (`search.go`) -/

/-- `Message` from search.go: one parsed chat message.  The Go field
`Type` is spelled `Type'` because `Type` is a Lean keyword. -/
structure Message where
  Role : String
  Type' : String
  Text : String
  Timestamp : String
  SessionID : String
  Project : String
  FilePath : String
  MsgIndex : Nat
deriving DecidableEq

/-- Alias used to give the `Match.Message` field its Go name. -/
abbrev Msg := Message

/-- `Match` from search.go (`Similarity` is `float32` in Go, modeled as ℚ). -/
structure Match where
  Message : Msg
  ContextBefore : List Msg
  ContextAfter : List Msg
  Similarity : ℚ
deriving DecidableEq

/-- `SearchOpts` from search.go.  `MaxResults`/`MaxDays` keep their Go
`int` signedness; `Before`/`After` are only ever read under a `> 0`
guard, so they are modeled as `Nat` (negative values behave like 0 in
the Go code). -/
structure SearchOpts where
  Role : String
  MaxResults : Int
  MaxDays : Int
  Before : Nat
  After : Nat
  ListOnly : Bool
deriving DecidableEq

/-- `extractSessionID` from search.go. -/
def extractSessionID (fpath : String) : String :=
  let base := filepathBase fpath
  let ext := filepathExt base
  let id := trimSuffix base ext
  if id.length > 12 then (id.toList.take 12).asString else id

/-- `extractProject` from search.go. -/
def extractProject (fpath : String) : String :=
  filepathBase (filepathDir fpath)

/-! ### Transcript parser (`parseJSONL`, search.go lines 206–277)

The `encoding/json` layer (`json.Unmarshal` of the line into a map plus
the `type`/`timestamp` field reads and `extractText`) is a pure function
of the line bytes; it is abstracted as a `decode` parameter.  All
subsequent logic — type filtering, timestamp truncation, the empty-text
check, deduplication and ordinal renumbering — is translated verbatim. -/

/-- The result of decoding one line: either the `json.Unmarshal` call
failed, or it produced a record with the extracted `type` field, the raw
`timestamp` field, and the `extractText` result (Go zero value `""`
stands for an absent field). -/
inductive LineDecode where
  | malformed : LineDecode
  | record (msgType timestamp text : String) : LineDecode

/-- Truncation of the timestamp to its first 19 bytes
(`if len(timestamp) > 19 { timestamp = timestamp[:19] }`). -/
def truncTs (timestamp : String) : String :=
  if timestamp.length > 19 then (timestamp.toList.take 19).asString else timestamp

/-- The per-line loop of `parseJSONL`: `messages` is the accumulator and
`idx` the running ordinal counter (incremented on append, not on
replacement). -/
def parseLoop (decode : List Char → LineDecode) (sessionID project fpath : String) :
    List (List Char) → List Message → Nat → List Message
  | [], messages, _ => messages
  | line :: rest, messages, idx =>
    if line.length = 0 then parseLoop decode sessionID project fpath rest messages idx else
    match decode line with
    | .malformed => parseLoop decode sessionID project fpath rest messages idx
    | .record msgType timestamp text =>
      if msgType ≠ "user" ∧ msgType ≠ "assistant" then
        parseLoop decode sessionID project fpath rest messages idx
      else if text = "" then
        parseLoop decode sessionID project fpath rest messages idx
      else
        let msg : Message :=
          { Role := msgType, Type' := msgType, Text := text, Timestamp := truncTs timestamp,
            SessionID := sessionID, Project := project, FilePath := fpath, MsgIndex := idx }
        match messages.getLast? with
        | some prev =>
          if prev.Timestamp = truncTs timestamp ∧ prev.Role = msgType then
            parseLoop decode sessionID project fpath rest (messages.dropLast ++ [msg]) idx
          else
            parseLoop decode sessionID project fpath rest (messages ++ [msg]) (idx + 1)
        | none => parseLoop decode sessionID project fpath rest (messages ++ [msg]) (idx + 1)

/-- The `for i := range messages { messages[i].MsgIndex = i }` pass,
starting at ordinal `i`. -/
def renumberFrom (i : Nat) : List Message → List Message
  | [] => []
  | m :: rest => { m with MsgIndex := i } :: renumberFrom (i + 1) rest

/-- `parseJSONL` from search.go: split into lines, keep well-formed
user/assistant records with non-empty text, deduplicate consecutive
records with identical timestamp and role (latest wins), then renumber
ordinals 0..n-1. -/
def parseJSONL (decode : List Char → LineDecode) (fpath : String) (data : List Char) :
    List Message :=
  renumberFrom 0
    (parseLoop decode (extractSessionID fpath) (extractProject fpath) fpath
      (splitLines data) [] 0)

/-! ### A two-phase view of the parser, used to reason about
deduplication.  `keptRecords` lists the records that survive the
per-line filters (the "kept records" of the claims), `dedupRecs` is the
dedup pass alone, and `recsToMsgs` rebuilds the `Message` values. -/

/-- The role/timestamp/text content of one kept record. -/
structure RawTurn where
  role : String
  ts : String
  text : String
deriving DecidableEq

/-- The record kept from one line, if any: exactly the filters of the
`parseJSONL` loop. -/
def lineToRec (decode : List Char → LineDecode) (line : List Char) : Option RawTurn :=
  if line.length = 0 then none else
  match decode line with
  | .malformed => none
  | .record msgType timestamp text =>
    if msgType ≠ "user" ∧ msgType ≠ "assistant" then none
    else if text = "" then none
    else some ⟨msgType, truncTs timestamp, text⟩

/-- The records of a byte content that survive the `parseJSONL` filters,
before deduplication, in file order. -/
def keptRecords (decode : List Char → LineDecode) (data : List Char) : List RawTurn :=
  (splitLines data).filterMap (lineToRec decode)

/-- One dedup step: replace the last accumulated record when timestamp
and role agree, append otherwise. -/
def dedupPush (acc : List RawTurn) (r : RawTurn) : List RawTurn :=
  match acc.getLast? with
  | some prev =>
    if prev.ts = r.ts ∧ prev.role = r.role then acc.dropLast ++ [r] else acc ++ [r]
  | none => acc ++ [r]

/-- The deduplication pass of `parseJSONL`, in isolation. -/
def dedupRecs (recs : List RawTurn) : List RawTurn :=
  recs.foldl dedupPush []

/-- Rebuild the parser output from deduplicated records: ordinal `i`
onwards, constant session/project/path fields. -/
def recsToMsgs (sessionID project fpath : String) (i : Nat) : List RawTurn → List Message
  | [] => []
  | r :: rest =>
    { Role := r.role, Type' := r.role, Text := r.text, Timestamp := r.ts,
      SessionID := sessionID, Project := project, FilePath := fpath, MsgIndex := i }
      :: recsToMsgs sessionID project fpath (i + 1) rest

/-- Lookahead formulation of deduplication: a record survives exactly
when the record immediately after it differs in timestamp or role. -/
def keepLast : List RawTurn → List RawTurn
  | [] => []
  | [a] => [a]
  | a :: b :: t =>
    if a.ts = b.ts ∧ a.role = b.role then keepLast (b :: t) else a :: keepLast (b :: t)

/-! ### Literal prefilter (`search.go` lines 352–471) -/

/-- `isRegexMeta` from search.go. -/
def isRegexMeta (c : Char) : Bool :=
  c = '.' || c = '+' || c = '*' || c = '?' ||
  c = '^' || c = '$' || c = '{' || c = '}' ||
  c = '[' || c = ']' || c = '(' || c = ')' ||
  c = '|' || c = '\\'

/-- The scanning loop of `longestLiteral`: `best` is the longest literal
run seen so far, `current` the run being built.  A backslash followed by
another byte contributes that byte to the run; a metacharacter closes
the run. -/
def llLoop : List Char → List Char → List Char → List Char
  | [], best, current => if current.length > best.length then current else best
  | '\\' :: d :: rest, best, current => llLoop rest best (current ++ [d])
  | c :: rest, best, current =>
    if isRegexMeta c then
      llLoop rest (if current.length > best.length then current else best) []
    else llLoop rest best (current ++ [c])

/-- `longestLiteral` from search.go: the longest contiguous run of
non-metacharacter bytes (escaped metacharacters count as literals). -/
def longestLiteral (s : String) : String :=
  (llLoop s.toList [] []).asString

/-- The depth scan of `stripOuterGroup`: does the parenthesis depth
return to zero strictly before the final byte? -/
def sogEarly : List Char → Int → Bool
  | [], _ => false
  | c :: rest, depth =>
    let d := if c = '(' then depth + 1 else if c = ')' then depth - 1 else depth
    if d = 0 ∧ rest ≠ [] then true else sogEarly rest d

/-- `stripOuterGroup` from search.go: remove one truly-outer pair of
parentheses, also dropping a leading `?:`, `?i:` or `?i`. -/
def stripOuterGroup (s : String) : String :=
  let l := s.toList
  if l.length < 2 ∨ l.head? ≠ some '(' ∨ l.getLast? ≠ some ')' then s
  else if sogEarly l 0 then s
  else
    let inner := (l.drop 1).dropLast
    if startsWith ['?', ':'] inner then (inner.drop 2).asString
    else if startsWith ['?', 'i', ':'] inner then (inner.drop 3).asString
    else if startsWith ['?', 'i'] inner then (inner.drop 2).asString
    else inner.asString

/-- The loop of `splitTopLevelPipe`: split on `|` at parenthesis depth
zero, keeping every other byte. -/
def stlpLoop : List Char → Int → List Char → List (List Char)
  | [], _, cur => [cur]
  | c :: rest, depth, cur =>
    if c = '(' then stlpLoop rest (depth + 1) (cur ++ [c])
    else if c = ')' then stlpLoop rest (if depth > 0 then depth - 1 else depth) (cur ++ [c])
    else if c = '|' ∧ depth = 0 then cur :: stlpLoop rest depth []
    else stlpLoop rest depth (cur ++ [c])

/-- `splitTopLevelPipe` from search.go. -/
def splitTopLevelPipe (s : String) : List String :=
  (stlpLoop s.toList 0 []).map List.asString

/-- `strings.Trim(part, "()")` as used by `extractPrefilterLiterals`. -/
def trimParens (s : String) : String :=
  (((s.toList.dropWhile (fun c => c = '(' ∨ c = ')')).reverse.dropWhile
    (fun c => c = '(' ∨ c = ')')).reverse).asString

/-- The per-branch loop of `extractPrefilterLiterals`: an empty literal
for any branch aborts with `nil` (modeled as `[]`). -/
def eplLoop : List String → List (List Char) → List (List Char)
  | [], literals => if literals.length = 0 then [] else literals
  | part :: rest, literals =>
    let lit := longestLiteral (trimParens part)
    if lit = "" then []
    else eplLoop rest (literals ++ [(lowerStr lit).toList])

/-- `extractPrefilterLiterals` from search.go.  Go's `nil` result
(prefilter disabled) is modeled as the empty list, exactly as consumed
by `prefilterMatch` (which only tests emptiness and iterates). -/
def extractPrefilterLiterals (pattern : String) : List (List Char) :=
  eplLoop (splitTopLevelPipe (stripOuterGroup pattern)) []

/-- `prefilterMatch` from search.go: disabled prefilters always pass,
otherwise any literal contained in the lowercased data passes. -/
def prefilterMatch (data : List Char) (literals : List (List Char)) : Bool :=
  if literals.length = 0 then true
  else
    let lower := data.map lowerChar
    literals.any fun lit => containsSub lower lit

example : extractPrefilterLiterals "openclaw" = ["openclaw".toList] := by decide
example : extractPrefilterLiterals "(openclaw|heartbeat)" =
    ["openclaw".toList, "heartbeat".toList] := by decide
example : extractPrefilterLiterals "(UPS|power supply|APC)" =
    ["ups".toList, "power supply".toList, "apc".toList] := by decide
example : extractPrefilterLiterals "open.claw" = ["open".toList] := by decide
example : extractPrefilterLiterals "(?i:foo|bar)" = ["foo".toList, "bar".toList] := by decide
example : extractPrefilterLiterals ".*" = [] := by decide
example : extractPrefilterLiterals "(openclaw|.*)" = [] := by decide
example : extractPrefilterLiterals "open\\.claw" = ["open.claw".toList] := by decide
example : longestLiteral "a.*long_literal" = "long_literal" := by decide

/-! ### Regular-expression semantics

A small regular-expression language with Brzozowski-derivative matching,
used to state what the compiled Go pattern `(?i)pat` accepts.  Character
comparison is case-insensitive (byte-level ASCII folding), matching the
`(?i)` flag `regexSearch` always prepends. -/

inductive Regex where
  | emp : Regex
  | eps : Regex
  | chr (c : Char) : Regex
  | dot : Regex
  | cat (r₁ r₂ : Regex) : Regex
  | alt (r₁ r₂ : Regex) : Regex
  | star (r : Regex) : Regex

/-- Does the regex accept the empty string? -/
def Regex.nullable : Regex → Bool
  | .emp => false
  | .eps => true
  | .chr _ => false
  | .dot => false
  | .cat r₁ r₂ => r₁.nullable && r₂.nullable
  | .alt r₁ r₂ => r₁.nullable || r₂.nullable
  | .star _ => true

/-- Brzozowski derivative with respect to one character
(case-insensitive on `chr`). -/
def Regex.deriv : Regex → Char → Regex
  | .emp, _ => .emp
  | .eps, _ => .emp
  | .chr a, c => if lowerChar c = lowerChar a then .eps else .emp
  | .dot, _ => .eps
  | .cat r₁ r₂, c =>
    if r₁.nullable then .alt (.cat (r₁.deriv c) r₂) (r₂.deriv c)
    else .cat (r₁.deriv c) r₂
  | .alt r₁ r₂, c => .alt (r₁.deriv c) (r₂.deriv c)
  | .star r, c => .cat (r.deriv c) (.star r)

/-- Whole-string acceptance. -/
def Regex.accepts (r : Regex) (s : List Char) : Bool :=
  (s.foldl Regex.deriv r).nullable

/-- Unanchored matching, the semantics of Go's `Regexp.MatchString`:
some substring is accepted. -/
def Regex.matchesIn (r : Regex) (s : String) : Bool :=
  (Regex.cat (.star .dot) (.cat r (.star .dot))).accepts s.toList

/-! ### Per-file regex search (`searchFileTracked`, search.go lines 150–203)

`os.ReadFile` is abstracted by handing the function the file bytes, and
the compiled `*regexp.Regexp` by a `reMatch : String → Bool` predicate
(instantiated with `Regex.matchesIn` of the compiled pattern). -/

/-- Context-window construction of the match loop: `ContextBefore` is
the up-to-`Before` messages preceding index `i` and `ContextAfter` the
up-to-`After` following ones, clamped to the session bounds. -/
def buildMatchAt (opts : SearchOpts) (messages : List Message) (i : Nat) (msg : Message) :
    Match :=
  let before :=
    if opts.Before > 0 then
      let start := i - opts.Before
      (messages.drop start).take (i - start)
    else []
  let after :=
    if opts.After > 0 then
      let stop := min (i + opts.After + 1) messages.length
      (messages.drop (i + 1)).take (stop - (i + 1))
    else []
  { Message := msg, ContextBefore := before, ContextAfter := after, Similarity := 0 }

/-- The match loop of `searchFileTracked`: role filter, regex test,
context windows. -/
def fileMatches (reMatch : String → Bool) (opts : SearchOpts) (messages : List Message) :
    List Match :=
  (messages.enum.map fun p =>
    if opts.Role ≠ "both" ∧ p.2.Type' ≠ opts.Role then []
    else if ¬ reMatch p.2.Text then []
    else [buildMatchAt opts messages p.1 p.2]).flatten

/-- `searchFileTracked` from search.go: prefilter check, parse, match.
The second component reports whether the prefilter skipped the file. -/
def searchFileTracked (reMatch : String → Bool) (decode : List Char → LineDecode)
    (prefilter : List (List Char)) (opts : SearchOpts) (fpath : String) (data : List Char) :
    List Match × Bool :=
  if ¬ prefilterMatch data prefilter then ([], true)
  else
    let messages := parseJSONL decode fpath data
    if messages.length = 0 then ([], false)
    else (fileMatches reMatch opts messages, false)

/-! ### Fan-in, global sort and truncation (`regexSearch`, search.go lines 96–114)

Worker nondeterminism is modeled by quantifying over the order in which
per-file match lists arrive on the fan-in channel; the sort models
`sort.Slice` with the comparator `Timestamp i > Timestamp j` (Go's
byte-wise string comparison coincides with Lean's `String` order, since
UTF-8 byte order equals scalar-value order; on the concrete inputs below
`sort.Slice` performs a stable insertion sort). -/

/-- Descending insertion of one match (ties keep the earlier-arrived
element first). -/
def insertDesc (m : Match) : List Match → List Match
  | [] => [m]
  | x :: xs =>
    if x.Message.Timestamp ≤ m.Message.Timestamp then m :: x :: xs
    else x :: insertDesc m xs

/-- Sort by timestamp descending (newest first). -/
def sortMatchesDesc : List Match → List Match
  | [] => []
  | m :: rest => insertDesc m (sortMatchesDesc rest)

/-- The fan-in, sort and limit steps of `regexSearch`: concatenate the
per-file match lists in arrival order, sort by timestamp descending,
then truncate to `MaxResults`. -/
def regexSearchGather (perFile : List (List Match)) (maxResults : Int) : List Match :=
  let allMatches := perFile.flatten
  let sorted := sortMatchesDesc allMatches
  if (sorted.length : Int) > maxResults then sorted.take maxResults.toNat else sorted

/-! ### Vector store (`store.go`, `index.go`) -/

/-- `IndexEntry` from store.go (the `float32` vector is modeled over ℚ). -/
structure IndexEntry where
  SessionID : String
  MsgIndex : Nat
  Role : String
  Timestamp : String
  Preview : String
  FilePath : String
  Vector : List ℚ
deriving DecidableEq

/-- `FileMetadata` from store.go (`time.Time` modeled as an integer
instant). -/
structure FileMetadata where
  FilePath : String
  LastModified : Int
deriving DecidableEq

/-- `Index` from store.go.  The Go `map[string]FileMetadata` is modeled
as an association list wrapped in `Option`: `none` stands for a nil map,
`some` for an initialized one. -/
structure Index where
  Entries : List IndexEntry
  Files : Option (List (String × FileMetadata))
  Project : String
deriving DecidableEq

/-- The outcome of `gob.NewDecoder(f).Decode(idx)`, abstracted:
decoding either fails (possibly after having partially overwritten the
target value — `errAfter` carries that garbled value), or succeeds,
yielding the decoded entries, the decoded file-metadata map (gob never
produces a nil map when decoding into an initialized one) and the
decoded `Project` field (`none` when the stream did not carry one, in
which case the pre-initialized value survives). -/
inductive GobResult where
  | errAfter (garbled : Index) : GobResult
  | ok (entries : List IndexEntry) (files : List (String × FileMetadata))
      (projectField : Option String) : GobResult

/-- The outcome of `os.Open(indexPath(project))`, abstracted. -/
inductive OpenResult where
  | openErr : OpenResult
  | opened (g : GobResult) : OpenResult

/-- The empty index `loadIndex` falls back to: initialized `Files` map,
given project name. -/
def freshIndex (project : String) : Index :=
  { Entries := [], Files := some [], Project := project }

/-- `loadIndex` from store.go: open failure or decode failure yield a
fresh empty index (a decode failure discards the possibly
partially-overwritten value and builds a new one); a successful decode
yields the decoded contents. -/
def loadIndex (project : String) (fs : OpenResult) : Index :=
  match fs with
  | .openErr => freshIndex project
  | .opened (.errAfter _) => { Entries := [], Files := some [], Project := project }
  | .opened (.ok entries files projectField) =>
    { Entries := entries, Files := some files,
      Project := projectField.getD (freshIndex project).Project }

/-- The accumulation loop of `removeEntriesForFile` (index.go lines
148–156): `kept` collects entries whose path differs. -/
def refLoop (fpath : String) : List IndexEntry → List IndexEntry → List IndexEntry
  | [], kept => kept
  | e :: rest, kept =>
    if e.FilePath ≠ fpath then refLoop fpath rest (kept ++ [e])
    else refLoop fpath rest kept

/-- `removeEntriesForFile` from index.go. -/
def removeEntriesForFile (entries : List IndexEntry) (fpath : String) : List IndexEntry :=
  refLoop fpath entries []

/-! ### Semantic-search candidate selection (`semanticSearch`, store.go)

The per-entry filter of the scoring loop.  `time.Parse` of the stored
timestamp is abstracted as `parseTs` (into an integer instant, `none`
for a parse error), the cutoff as `cutoff` (`none` when
`opts.MaxDays ≤ 0`, i.e. `cutoff.IsZero()`), and the floating-point
`cosineSimilarity` as `cosSim` over ℚ.  The similarity threshold
comparison `sim > 0.3` is translated exactly. -/

/-- The age filter of the candidate loop: an entry is dropped when a
cutoff is set, its timestamp is non-empty and parses, and the parsed
instant is before the cutoff. -/
def ageDrops (parseTs : String → Option Int) (cutoff : Option Int) (entryTs : String) :
    Bool :=
  match cutoff, (if entryTs ≠ "" then parseTs entryTs else none) with
  | some c, some t => decide (t < c)
  | _, _ => false

/-- One iteration of the candidate loop: role filter, age filter, then
the strict `0.3` similarity threshold. -/
def keepEntry (opts : SearchOpts) (parseTs : String → Option Int) (cutoff : Option Int)
    (cosSim : List ℚ → List ℚ → ℚ) (queryVec : List ℚ) (entry : IndexEntry) :
    Option (IndexEntry × ℚ) :=
  if opts.Role ≠ "both" ∧ entry.Role ≠ opts.Role then none
  else if ageDrops parseTs cutoff entry.Timestamp then none
  else
    let sim := cosSim queryVec entry.Vector
    if sim > 3/10 then some (entry, sim) else none

/-- The candidate list collected over the in-scope entries. -/
def collectCandidates (opts : SearchOpts) (parseTs : String → Option Int)
    (cutoff : Option Int) (cosSim : List ℚ → List ℚ → ℚ) (queryVec : List ℚ)
    (entries : List IndexEntry) : List (IndexEntry × ℚ) :=
  entries.filterMap (keepEntry opts parseTs cutoff cosSim queryVec)

/-! ### Parser lemmas: the loop is filters + dedup + renumbering -/

/-- The dedup-relevant content of a message. -/
def stripMsg (m : Message) : RawTurn :=
  ⟨m.Role, m.Timestamp, m.Text⟩

/-- The constant per-file fields `parseJSONL` stamps on every message. -/
def constFields (sid proj fpath : String) (m : Message) : Prop :=
  m.SessionID = sid ∧ m.Project = proj ∧ m.FilePath = fpath ∧ m.Type' = m.Role

theorem parseLoop_map_strip (decode : List Char → LineDecode) (sid proj fpath : String) :
    ∀ (lines : List (List Char)) (acc : List Message) (idx : Nat),
      (parseLoop decode sid proj fpath lines acc idx).map stripMsg =
        (lines.filterMap (lineToRec decode)).foldl dedupPush (acc.map stripMsg) := by
  intro lines
  induction lines with
  | nil => intro acc idx; simp [parseLoop]
  | cons line rest ih =>
    intro acc idx
    by_cases h0 : line.length = 0
    · simp [parseLoop, lineToRec, h0, ih]
    · cases hdec : decode line with
      | malformed => simp [parseLoop, lineToRec, h0, hdec, ih]
      | record msgType timestamp text =>
        by_cases h1 : msgType ≠ "user" ∧ msgType ≠ "assistant"
        · simp [parseLoop, lineToRec, h0, hdec, h1, ih]
        · by_cases h2 : text = ""
          · simp [parseLoop, lineToRec, h0, hdec, h1, h2, ih]
          · cases hlast : acc.getLast? with
            | none =>
              have hmap : (acc.map stripMsg).getLast? = none := by
                rw [List.getLast?_map, hlast]; rfl
              simp [parseLoop, lineToRec, h0, hdec, h1, h2, hlast, ih, dedupPush, hmap,
                stripMsg]
            | some prev =>
              have hmap : (acc.map stripMsg).getLast? = some (stripMsg prev) := by
                rw [List.getLast?_map, hlast]; rfl
              by_cases hdup : prev.Timestamp = truncTs timestamp ∧ prev.Role = msgType
              · simp [parseLoop, lineToRec, h0, hdec, h1, h2, hlast, ih, dedupPush, hmap,
                  stripMsg, hdup.1, hdup.2, List.map_dropLast]
              · have hdup2 : ¬ ((stripMsg prev).ts = truncTs timestamp ∧
                    (stripMsg prev).role = msgType) := by
                  simpa [stripMsg] using hdup
                simp [parseLoop, lineToRec, h0, hdec, h1, h2, hlast, ih, dedupPush, hmap,
                  stripMsg, hdup, hdup2]

theorem parseLoop_const (decode : List Char → LineDecode) (sid proj fpath : String) :
    ∀ (lines : List (List Char)) (acc : List Message) (idx : Nat),
      (∀ m ∈ acc, constFields sid proj fpath m) →
      ∀ m ∈ parseLoop decode sid proj fpath lines acc idx, constFields sid proj fpath m := by
  intro lines
  induction lines with
  | nil => intro acc idx hacc; simpa [parseLoop] using hacc
  | cons line rest ih =>
    intro acc idx hacc
    by_cases h0 : line.length = 0
    · simp only [parseLoop, h0, if_pos]; exact ih acc idx hacc
    · cases hdec : decode line with
      | malformed =>
        simp only [parseLoop, h0, ite_false, hdec]
        exact ih acc idx hacc
      | record msgType timestamp text =>
        by_cases h1 : msgType ≠ "user" ∧ msgType ≠ "assistant"
        · simp only [parseLoop, h0, ite_false, hdec, if_pos h1]
          exact ih acc idx hacc
        · by_cases h2 : text = ""
          · simp only [parseLoop, h0, ite_false, hdec, if_neg h1, if_pos h2]
            exact ih acc idx hacc
          · have hmsg : constFields sid proj fpath
                { Role := msgType, Type' := msgType, Text := text,
                  Timestamp := truncTs timestamp, SessionID := sid, Project := proj,
                  FilePath := fpath, MsgIndex := idx } := by
              simp [constFields]
            cases hlast : acc.getLast? with
            | none =>
              simp only [parseLoop, h0, ite_false, hdec, if_neg h1, if_neg h2, hlast]
              apply ih
              intro m hm
              rcases List.mem_append.mp hm with hm | hm
              · exact hacc m hm
              · rcases List.mem_singleton.mp hm with rfl; exact hmsg
            | some prev =>
              by_cases hdup : prev.Timestamp = truncTs timestamp ∧ prev.Role = msgType
              · simp only [parseLoop, h0, ite_false, hdec, if_neg h1, if_neg h2, hlast,
                  if_pos hdup]
                apply ih
                intro m hm
                rcases List.mem_append.mp hm with hm | hm
                · exact hacc m (List.dropLast_sublist acc |>.subset hm)
                · rcases List.mem_singleton.mp hm with rfl; exact hmsg
              · simp only [parseLoop, h0, ite_false, hdec, if_neg h1, if_neg h2, hlast,
                  if_neg hdup]
                apply ih
                intro m hm
                rcases List.mem_append.mp hm with hm | hm
                · exact hacc m hm
                · rcases List.mem_singleton.mp hm with rfl; exact hmsg

theorem renumberFrom_eq_recsToMsgs (sid proj fpath : String) :
    ∀ (out : List Message) (i : Nat), (∀ m ∈ out, constFields sid proj fpath m) →
      renumberFrom i out = recsToMsgs sid proj fpath i (out.map stripMsg) := by
  intro out
  induction out with
  | nil => intro i _; simp [renumberFrom, recsToMsgs]
  | cons m rest ih =>
    intro i h
    obtain ⟨h1, h2, h3, h4⟩ := h m (by simp)
    simp only [renumberFrom, List.map_cons, recsToMsgs, stripMsg]
    rw [ih (i + 1) fun m hm => h m (by simp [hm])]
    congr 1
    cases m
    simp_all [stripMsg]

/-- The parser decomposed: `parseJSONL` is the kept records, deduplicated,
rebuilt with dense ordinals and constant per-file fields. -/
theorem parseJSONL_decomp (decode : List Char → LineDecode) (fpath : String)
    (data : List Char) :
    parseJSONL decode fpath data =
      recsToMsgs (extractSessionID fpath) (extractProject fpath) fpath 0
        (dedupRecs (keptRecords decode data)) := by
  unfold parseJSONL
  rw [renumberFrom_eq_recsToMsgs _ _ _ _ 0
    (parseLoop_const decode _ _ fpath (splitLines data) [] 0 (by simp))]
  rw [parseLoop_map_strip]
  simp [dedupRecs, keptRecords]

/-! ### Deduplication lemmas -/

theorem foldl_dedupPush_concat :
    ∀ (l A : List RawTurn) (a : RawTurn),
      l.foldl dedupPush (A ++ [a]) = A ++ keepLast (a :: l) := by
  intro l
  induction l with
  | nil => intro A a; simp [keepLast]
  | cons b t ih =>
    intro A a
    by_cases hm : a.ts = b.ts ∧ a.role = b.role
    · have hstep : dedupPush (A ++ [a]) b = A ++ [b] := by
        simp [dedupPush, List.getLast?_concat, hm, List.dropLast_concat]
      simp only [List.foldl_cons, hstep, ih, keepLast, if_pos hm]
    · have hstep : dedupPush (A ++ [a]) b = (A ++ [a]) ++ [b] := by
        simp [dedupPush, List.getLast?_concat, hm]
      simp only [List.foldl_cons, hstep]
      rw [ih (A ++ [a]) b]
      simp [keepLast, hm]

theorem dedupRecs_eq_keepLast : ∀ l : List RawTurn, dedupRecs l = keepLast l := by
  intro l
  cases l with
  | nil => rfl
  | cons a t =>
    have h1 : dedupPush [] a = [] ++ [a] := by simp [dedupPush]
    calc dedupRecs (a :: t) = t.foldl dedupPush ([] ++ [a]) := by
          simp [dedupRecs, h1]
      _ = [] ++ keepLast (a :: t) := foldl_dedupPush_concat t [] a
      _ = keepLast (a :: t) := by simp

theorem dedupPush_pair (A : List RawTurn) (r₁ r₂ : RawTurn)
    (hts : r₁.ts = r₂.ts) (hrole : r₁.role = r₂.role) :
    dedupPush (dedupPush A r₁) r₂ = dedupPush A r₂ := by
  rcases A.eq_nil_or_concat with rfl | ⟨B, b, rfl⟩
  · have h1 : dedupPush ([] : List RawTurn) r₁ = [r₁] := by simp [dedupPush]
    simp [h1, dedupPush, hts, hrole]
  · simp only [List.concat_eq_append]
    by_cases hb : b.ts = r₁.ts ∧ b.role = r₁.role
    · have h1 : dedupPush (B ++ [b]) r₁ = B ++ [r₁] := by
        simp [dedupPush, List.getLast?_concat, hb, List.dropLast_concat]
      have h2 : dedupPush (B ++ [r₁]) r₂ = B ++ [r₂] := by
        simp [dedupPush, List.getLast?_concat, hts, hrole, List.dropLast_concat]
      have h3 : dedupPush (B ++ [b]) r₂ = B ++ [r₂] := by
        simp [dedupPush, List.getLast?_concat, hb.1.trans hts, hb.2.trans hrole,
          List.dropLast_concat]
      rw [h1, h2, h3]
    · have hb2 : ¬ (b.ts = r₂.ts ∧ b.role = r₂.role) := by
        intro h
        exact hb ⟨h.1.trans hts.symm, h.2.trans hrole.symm⟩
      have h1 : dedupPush (B ++ [b]) r₁ = (B ++ [b]) ++ [r₁] := by
        simp [dedupPush, List.getLast?_concat, hb]
      have h2 : dedupPush ((B ++ [b]) ++ [r₁]) r₂ = (B ++ [b]) ++ [r₂] := by
        simp [dedupPush, List.getLast?_concat, hts, hrole, List.dropLast_concat]
      have h3 : dedupPush (B ++ [b]) r₂ = (B ++ [b]) ++ [r₂] := by
        simp [dedupPush, List.getLast?_concat, hb2]
      rw [h1, h2, h3]

theorem dedupRecs_collapse_pair (pre post : List RawTurn) (r₁ r₂ : RawTurn)
    (hts : r₁.ts = r₂.ts) (hrole : r₁.role = r₂.role) :
    dedupRecs (pre ++ r₁ :: r₂ :: post) = dedupRecs (pre ++ r₂ :: post) := by
  simp only [dedupRecs, List.foldl_append, List.foldl_cons]
  rw [dedupPush_pair _ _ _ hts hrole]

theorem recsToMsgs_map_strip (sid proj fpath : String) :
    ∀ (recs : List RawTurn) (i : Nat),
      (recsToMsgs sid proj fpath i recs).map stripMsg = recs := by
  intro recs
  induction recs with
  | nil => intro i; simp [recsToMsgs]
  | cons r rest ih => intro i; simp [recsToMsgs, stripMsg, ih]

/-- The stripped parser output is exactly the deduplicated kept records. -/
theorem parseJSONL_map_strip (decode : List Char → LineDecode) (fpath : String)
    (data : List Char) :
    (parseJSONL decode fpath data).map stripMsg = dedupRecs (keptRecords decode data) := by
  rw [parseJSONL_decomp]
  exact recsToMsgs_map_strip _ _ _ _ _

theorem keepLast_cons_subset (a : RawTurn) (l : List RawTurn) :
    ∀ x ∈ keepLast l, x ∈ keepLast (a :: l) := by
  intro x hx
  cases l with
  | nil => simp [keepLast] at hx
  | cons b t =>
    by_cases h : a.ts = b.ts ∧ a.role = b.role
    · simpa [keepLast, h] using hx
    · simp [keepLast, h, hx]

theorem mem_keepLast_of_succ :
    ∀ (l₁ : List RawTurn) (x : RawTurn) (l₂ : List RawTurn),
      (∀ y, l₂.head? = some y → ¬(x.ts = y.ts ∧ x.role = y.role)) →
      x ∈ keepLast (l₁ ++ x :: l₂) := by
  intro l₁
  induction l₁ with
  | nil =>
    intro x l₂ h
    cases l₂ with
    | nil => simp [keepLast]
    | cons y t =>
      have hy := h y rfl
      simp [keepLast, hy]
  | cons a l₁ ih =>
    intro x l₂ h
    have hx := ih x l₂ h
    rw [List.cons_append]
    cases hl : l₁ ++ x :: l₂ with
    | nil => simp at hl
    | cons b t =>
      rw [hl] at hx
      exact keepLast_cons_subset a (b :: t) x hx

/-! ### Renumbering lemmas -/

theorem renumberFrom_map_msgIndex :
    ∀ (l : List Message) (i : Nat),
      (renumberFrom i l).map Message.MsgIndex = List.range' i l.length := by
  intro l
  induction l with
  | nil => intro i; simp [renumberFrom]
  | cons m rest ih => intro i; simp [renumberFrom, List.range', ih]

theorem renumberFrom_length :
    ∀ (l : List Message) (i : Nat), (renumberFrom i l).length = l.length := by
  intro l
  induction l with
  | nil => intro i; rfl
  | cons m rest ih => intro i; simp [renumberFrom, ih]

/-! ### Claim C5 -/

/-- C5 — Ordinal invariant: for every input byte content (and every
behaviour of the JSON line decoder), the `MsgIndex` values of the
messages returned by `parseJSONL` are exactly `0, 1, ..., n-1` in output
order: ordinal indices are dense, 0-based and strictly increasing, and
renumbering after deduplication touches nothing but `MsgIndex`. -/
theorem parseJSONL_msgIndex_dense (decode : List Char → LineDecode) (fpath : String)
    (data : List Char) :
    (parseJSONL decode fpath data).map Message.MsgIndex =
      List.range (parseJSONL decode fpath data).length := by
  unfold parseJSONL
  rw [renumberFrom_map_msgIndex, renumberFrom_length, List.range_eq_range']

/-! ### Claim C3 -/

/-- C3 — Parser deduplication: when the kept records of one byte content
are `pre ++ [r₁, r₂] ++ post` with `r₁` and `r₂` consecutive and equal in
timestamp and role, `parseJSONL` produces exactly the output it produces
on a content whose kept records are `pre ++ [r₂] ++ post`: the pair
contributes exactly one message, whose text is the second record's text
(the later record replaces the earlier one). -/
theorem parseJSONL_dedup_consecutive
    (decode₁ decode₂ : List Char → LineDecode) (fpath : String) (data₁ data₂ : List Char)
    (pre post : List RawTurn) (r₁ r₂ : RawTurn)
    (h₁ : keptRecords decode₁ data₁ = pre ++ r₁ :: r₂ :: post)
    (h₂ : keptRecords decode₂ data₂ = pre ++ r₂ :: post)
    (hts : r₁.ts = r₂.ts) (hrole : r₁.role = r₂.role) :
    parseJSONL decode₁ fpath data₁ = parseJSONL decode₂ fpath data₂ := by
  rw [parseJSONL_decomp, parseJSONL_decomp, h₁, h₂,
    dedupRecs_collapse_pair _ _ _ _ hts hrole]

/-- Concrete decoder used by the C3 witness: three lines decoding to a
duplicated user turn followed by an assistant turn. -/
def decC3 (line : List Char) : LineDecode :=
  if line = ['1'] then .record "user" "t1" "hello"
  else if line = ['2'] then .record "user" "t1" "world"
  else if line = ['3'] then .record "assistant" "t2" "bye"
  else .malformed

theorem parseJSONL_dedup_consecutive_witness :
    parseJSONL decC3 "p/s.jsonl" ("1\n2\n3".toList) =
      parseJSONL decC3 "p/s.jsonl" ("2\n3".toList) :=
  parseJSONL_dedup_consecutive decC3 decC3 "p/s.jsonl" ("1\n2\n3".toList) ("2\n3".toList)
    [] [⟨"assistant", "t2", "bye"⟩] ⟨"user", "t1", "hello"⟩ ⟨"user", "t1", "world"⟩
    (by decide) (by decide) rfl rfl

/-! ### Claim C10 -/

/-- Decoder for the C10 counterexample: three kept user records with the
same timestamp, pairwise different texts. -/
def decC10 (line : List Char) : LineDecode :=
  if line = ['1'] then .record "user" "t1" "a"
  else if line = ['2'] then .record "user" "t1" "b"
  else if line = ['3'] then .record "user" "t1" "c"
  else .malformed

/-- C10 counterexample: the claim "two kept records with the same
timestamp and role separated by at least one other kept message are both
retained" fails as stated.  Here the kept records are
`[(user,t1,a), (user,t1,b), (user,t1,c)]`: the first and third share
timestamp and role with the kept record `(user,t1,b)` between them, yet
chained adjacent replacement leaves only the final record in the output
— the first record of the pair is not retained. -/
theorem parseJSONL_nonadjacent_pair_dropped :
    keptRecords decC10 ("1\n2\n3".toList) =
      [⟨"user", "t1", "a"⟩, ⟨"user", "t1", "b"⟩, ⟨"user", "t1", "c"⟩]
    ∧ (parseJSONL decC10 "p/s.jsonl" ("1\n2\n3".toList)).map Message.Text = ["c"] := by
  constructor
  · decide
  · rw [show ("c" :: [] = List.map RawTurn.text [⟨"user", "t1", "c"⟩]) from rfl]
    have h : (parseJSONL decC10 "p/s.jsonl" ("1\n2\n3".toList)).map Message.Text =
        ((parseJSONL decC10 "p/s.jsonl" ("1\n2\n3".toList)).map stripMsg).map RawTurn.text := by
      simp [stripMsg]
    rw [h, parseJSONL_map_strip]
    decide

/-- C10 amended: dedup replacement is adjacent-only.  If the kept records
are `pre ++ [r₁] ++ mid ++ [r₂] ++ post` where `r₁` and `r₂` share
timestamp and role, at least one kept record lies between them, and
additionally neither `r₁` nor `r₂` is immediately followed by a kept
record with its own timestamp and role (the condition the counterexample
shows to be necessary), then both records appear in the parser output:
replacement never acts across intervening messages. -/
theorem parseJSONL_retains_nonadjacent_duplicates
    (decode : List Char → LineDecode) (fpath : String) (data : List Char)
    (pre mid post : List RawTurn) (r₁ r₂ : RawTurn)
    (hk : keptRecords decode data = pre ++ r₁ :: (mid ++ r₂ :: post))
    (hmid : mid ≠ [])
    (hts : r₁.ts = r₂.ts) (hrole : r₁.role = r₂.role)
    (hsucc₁ : ∀ y, mid.head? = some y → ¬(r₁.ts = y.ts ∧ r₁.role = y.role))
    (hsucc₂ : ∀ y, post.head? = some y → ¬(r₂.ts = y.ts ∧ r₂.role = y.role)) :
    r₁ ∈ (parseJSONL decode fpath data).map stripMsg ∧
      r₂ ∈ (parseJSONL decode fpath data).map stripMsg := by
  rw [parseJSONL_map_strip, hk, dedupRecs_eq_keepLast]
  constructor
  · apply mem_keepLast_of_succ
    intro y hy
    cases mid with
    | nil => exact absurd rfl hmid
    | cons m0 t =>
      have : m0 = y := by simpa using hy
      exact this ▸ hsucc₁ m0 rfl
  · have hassoc : pre ++ r₁ :: (mid ++ r₂ :: post) = (pre ++ r₁ :: mid) ++ r₂ :: post := by
      simp
    rw [hassoc]
    exact mem_keepLast_of_succ _ _ _ hsucc₂

/-- Decoder for the C10 witness: a user pair with the same timestamp
separated by an assistant record. -/
def decC10w (line : List Char) : LineDecode :=
  if line = ['1'] then .record "user" "t1" "a"
  else if line = ['2'] then .record "assistant" "t1" "b"
  else if line = ['3'] then .record "user" "t1" "c"
  else .malformed

theorem parseJSONL_retains_nonadjacent_duplicates_witness :
    (⟨"user", "t1", "a"⟩ : RawTurn) ∈
        (parseJSONL decC10w "p/s.jsonl" ("1\n2\n3".toList)).map stripMsg ∧
      (⟨"user", "t1", "c"⟩ : RawTurn) ∈
        (parseJSONL decC10w "p/s.jsonl" ("1\n2\n3".toList)).map stripMsg :=
  parseJSONL_retains_nonadjacent_duplicates decC10w "p/s.jsonl" ("1\n2\n3".toList)
    [] [⟨"assistant", "t1", "b"⟩] [] ⟨"user", "t1", "a"⟩ ⟨"user", "t1", "c"⟩
    (by decide) (by decide) rfl rfl
    (fun y hy => by
      have : (⟨"assistant", "t1", "b"⟩ : RawTurn) = y := by simpa using hy
      subst this
      decide)
    (fun y hy => by simp at hy)

/-! ### Claim C4 -/

theorem eplLoop_nil_of_empty :
    ∀ (parts : List String) (acc : List (List Char)),
      (∃ part ∈ parts, longestLiteral (trimParens part) = "") → eplLoop parts acc = [] := by
  intro parts
  induction parts with
  | nil => intro acc h; simp at h
  | cons p rest ih =>
    intro acc h
    by_cases hp : longestLiteral (trimParens p) = ""
    · simp [eplLoop, hp]
    · rcases h with ⟨q, hq, hq0⟩
      rcases List.mem_cons.mp hq with rfl | hq
      · exact absurd hq0 hp
      · simp only [eplLoop, if_neg hp]
        exact ih _ ⟨q, hq, hq0⟩

/-- C4 — Weak-branch disabling: whenever some top-level alternation
branch of the pattern yields no literal run (`longestLiteral` of the
trimmed branch is empty), `extractPrefilterLiterals` returns the
disabled result (Go `nil`, modeled as `[]`) for the whole pattern —
never a partial literal set covering only the other branches. -/
theorem extractPrefilterLiterals_disabled_of_weak_branch (pattern part : String)
    (hmem : part ∈ splitTopLevelPipe (stripOuterGroup pattern))
    (hweak : longestLiteral (trimParens part) = "") :
    extractPrefilterLiterals pattern = [] := by
  unfold extractPrefilterLiterals
  exact eplLoop_nil_of_empty _ _ ⟨part, hmem, hweak⟩

theorem extractPrefilterLiterals_disabled_of_weak_branch_witness :
    extractPrefilterLiterals "(lit|.*)" = [] :=
  extractPrefilterLiterals_disabled_of_weak_branch "(lit|.*)" ".*" (by decide) (by decide)

/-! ### Claim C1 -/

/-- A transcript line whose Go `encoding/json` decoding yields type
"user", timestamp "2024-01-01T00:00:00Z" and extracted text "a".  Its
lowercased bytes do not contain the substring "ab". -/
def dataC1 : List Char :=
  ("\x7b\"type\":\"user\",\"timestamp\":\"2024-01-01T00:00:00Z\"," ++
    "\"message\":\x7b\"content\":\"a\"\x7d\x7d").toList

/-- The JSON layer on the C1 file: the single line decodes as described
by Go's `encoding/json` on those bytes. -/
def decC1 (line : List Char) : LineDecode :=
  if line = dataC1 then .record "user" "2024-01-01T00:00:00Z" "a" else .malformed

/-- The compiled form of the Go pattern `(?i)ab?`: a literal `a`
followed by an optional `b`, matched case-insensitively. -/
def reAB : Regex :=
  .cat (.chr 'a') (.alt (.chr 'b') .eps)

def optsC1 : SearchOpts :=
  { Role := "both", MaxResults := 20, MaxDays := 7, Before := 0, After := 0,
    ListOnly := false }

/-- C1 — Prefilter soundness fails on the code (code bug): for the
pattern `ab?` the extracted literal set is the non-empty `["ab"]`, and
on a file whose only message text is `"a"` the prefilter skips the file
(`searchFileTracked` returns no matches and reports the skip), even
though the compiled pattern `(?i)ab?` matches that message's text: the
extracted literal `"ab"` is *not* guaranteed to occur in every string
the pattern matches, so a genuine match is lost. -/
theorem prefilter_drops_real_match :
    extractPrefilterLiterals "ab?" = [['a', 'b']]
    ∧ searchFileTracked (fun s => reAB.matchesIn s) decC1 (extractPrefilterLiterals "ab?")
        optsC1 "proj/sess.jsonl" dataC1 = ([], true)
    ∧ (parseJSONL decC1 "proj/sess.jsonl" dataC1).any
        (fun m => reAB.matchesIn m.Text) = true := by
  refine ⟨by decide, by decide, by decide⟩

/-! ### Sorting lemmas -/

/-- Non-increasing-timestamp relation: the order the global sort of
`regexSearch` establishes. -/
def tsGE (a b : Match) : Prop :=
  b.Message.Timestamp ≤ a.Message.Timestamp

/-- Strictly-decreasing-timestamp relation, used for sortedness
uniqueness. -/
def tsGT (a b : Match) : Prop :=
  b.Message.Timestamp < a.Message.Timestamp

instance : IsAntisymm Match tsGT :=
  ⟨fun _ _ h1 h2 => absurd (lt_trans h1 h2) (lt_irrefl _)⟩

theorem perm_insertDesc (m : Match) : ∀ l : List Match, List.Perm (insertDesc m l) (m :: l) := by
  intro l
  induction l with
  | nil => exact List.Perm.refl _
  | cons x xs ih =>
    by_cases h : x.Message.Timestamp ≤ m.Message.Timestamp
    · simp [insertDesc, h]
    · simp only [insertDesc, if_neg h]
      exact (ih.cons x).trans (List.Perm.swap m x xs)

theorem perm_sortMatchesDesc : ∀ l : List Match, List.Perm (sortMatchesDesc l) l := by
  intro l
  induction l with
  | nil => exact List.Perm.refl _
  | cons m rest ih => exact (perm_insertDesc m _).trans (ih.cons m)

theorem pairwise_insertDesc (m : Match) :
    ∀ l : List Match, l.Pairwise tsGE → (insertDesc m l).Pairwise tsGE := by
  intro l
  induction l with
  | nil => intro _; simp [insertDesc]
  | cons x xs ih =>
    intro h
    rcases List.pairwise_cons.mp h with ⟨hx, hxs⟩
    by_cases hc : x.Message.Timestamp ≤ m.Message.Timestamp
    · simp only [insertDesc, if_pos hc]
      refine List.pairwise_cons.mpr ⟨?_, h⟩
      intro y hy
      rcases List.mem_cons.mp hy with rfl | hy
      · exact hc
      · exact le_trans (hx y hy) hc
    · simp only [insertDesc, if_neg hc]
      refine List.pairwise_cons.mpr ⟨?_, ih hxs⟩
      intro y hy
      rcases List.mem_cons.mp ((perm_insertDesc m xs).mem_iff.mp hy) with rfl | hy2
      · exact le_of_lt (not_le.mp hc)
      · exact hx y hy2

theorem pairwise_sortMatchesDesc : ∀ l : List Match, (sortMatchesDesc l).Pairwise tsGE := by
  intro l
  induction l with
  | nil => simp [sortMatchesDesc]
  | cons m rest ih => exact pairwise_insertDesc m _ ih

theorem perm_flatten_of_perm {α : Type*} :
    ∀ {l₁ l₂ : List (List α)}, List.Perm l₁ l₂ → List.Perm l₁.flatten l₂.flatten := by
  intro l₁ l₂ h
  induction h with
  | nil => exact List.Perm.refl _
  | cons a _ ih => simpa using ih.append_left a
  | swap a b l =>
    simp only [List.flatten_cons]
    have h1 : b ++ (a ++ l.flatten) = (b ++ a) ++ l.flatten := by rw [List.append_assoc]
    have h2 : a ++ (b ++ l.flatten) = (a ++ b) ++ l.flatten := by rw [List.append_assoc]
    rw [h1, h2]
    exact List.Perm.append_right _ List.perm_append_comm
  | trans _ _ ih1 ih2 => exact ih1.trans ih2

theorem pairwise_and_of {α : Type*} {R S : α → α → Prop} :
    ∀ (l : List α), l.Pairwise R → l.Pairwise S →
      l.Pairwise fun a b => R a b ∧ S a b := by
  intro l
  induction l with
  | nil => intro _ _; exact List.Pairwise.nil
  | cons a t ih =>
    intro hR hS
    rcases List.pairwise_cons.mp hR with ⟨hA, hR'⟩
    rcases List.pairwise_cons.mp hS with ⟨hB, hS'⟩
    exact List.pairwise_cons.mpr ⟨fun b hb => ⟨hA b hb, hB b hb⟩, ih hR' hS'⟩

/-- A sorted pile of matches with pairwise-distinct timestamps is
strictly sorted. -/
theorem pairwise_tsGT_of_sorted_nodup (l : List Match)
    (hs : l.Pairwise tsGE)
    (hn : (l.map fun m => m.Message.Timestamp).Nodup) :
    l.Pairwise tsGT := by
  have hne : l.Pairwise fun a b => a.Message.Timestamp ≠ b.Message.Timestamp :=
    List.pairwise_map.mp hn
  exact (pairwise_and_of l hs hne).imp fun h => lt_of_le_of_ne h.1 (Ne.symm h.2)

/-! ### Claim C2 -/

def msgA : Message :=
  { Role := "user", Type' := "user", Text := "alpha", Timestamp := "2024-01-01T00:00:00",
    SessionID := "sa", Project := "p", FilePath := "p/sa.jsonl", MsgIndex := 0 }

def msgB : Message :=
  { Role := "user", Type' := "user", Text := "beta", Timestamp := "2024-01-01T00:00:00",
    SessionID := "sb", Project := "p", FilePath := "p/sb.jsonl", MsgIndex := 0 }

def msgC : Message :=
  { Role := "user", Type' := "user", Text := "gamma", Timestamp := "2024-01-02T00:00:00",
    SessionID := "sc", Project := "p", FilePath := "p/sc.jsonl", MsgIndex := 0 }

def matchA : Match := { Message := msgA, ContextBefore := [], ContextAfter := [], Similarity := 0 }

def matchB : Match := { Message := msgB, ContextBefore := [], ContextAfter := [], Similarity := 0 }

def matchC : Match := { Message := msgC, ContextBefore := [], ContextAfter := [], Similarity := 0 }

/-- C2 counterexample: result order is *not* independent of worker
completion order when two matches from different files share an
identical timestamp string.  The two runs below differ only in the order
the two per-file match lists arrive on the fan-in channel (a permutation
of the same batches), both matches carry the same timestamp, yet the
returned sequences differ. -/
theorem gatherEvalAB :
    regexSearchGather [[matchA], [matchB]] 20 = [matchA, matchB] := by
  have hle : matchB.Message.Timestamp ≤ matchA.Message.Timestamp := le_of_eq rfl
  simp only [regexSearchGather, List.flatten_cons, List.flatten_nil, List.append_nil,
    List.singleton_append, sortMatchesDesc, insertDesc, if_pos hle]
  norm_num

theorem gatherEvalBA :
    regexSearchGather [[matchB], [matchA]] 20 = [matchB, matchA] := by
  have hle : matchA.Message.Timestamp ≤ matchB.Message.Timestamp := le_of_eq rfl
  simp only [regexSearchGather, List.flatten_cons, List.flatten_nil, List.append_nil,
    List.singleton_append, sortMatchesDesc, insertDesc, if_pos hle]
  norm_num

theorem regexSearch_order_depends_on_worker_order :
    List.Perm ([[matchA], [matchB]] : List (List Match)) [[matchB], [matchA]]
    ∧ matchA.Message.Timestamp = matchB.Message.Timestamp
    ∧ regexSearchGather [[matchA], [matchB]] 20 ≠ regexSearchGather [[matchB], [matchA]] 20 :=
  ⟨List.Perm.swap [matchB] [matchA] [], rfl, by
    rw [gatherEvalAB, gatherEvalBA]
    intro h
    have h2 := congrArg (List.map fun mt => mt.Message.Text) h
    exact absurd h2 (by decide)⟩

/-- C2 amended: the returned sequence is identical across runs —
independent of the order in which the per-file match batches arrive on
the fan-in channel — whenever no two matches share an identical
timestamp string.  The determinism claim holds as stated only under
distinct timestamps: on ties the counterexample shows the sequence (and,
once truncation cuts through a tie group, even the selection) can follow
the nondeterministic arrival order, which is exactly the tie-breaking
gap the spec itself flags as unspecified. -/
theorem regexSearch_order_deterministic_of_distinct_timestamps
    (perFile₁ perFile₂ : List (List Match)) (maxResults : Int)
    (hperm : List.Perm perFile₁ perFile₂)
    (hnodup : (perFile₁.flatten.map fun m => m.Message.Timestamp).Nodup) :
    regexSearchGather perFile₁ maxResults = regexSearchGather perFile₂ maxResults := by
  have hj : List.Perm perFile₁.flatten perFile₂.flatten := perm_flatten_of_perm hperm
  have hsort : sortMatchesDesc perFile₁.flatten = sortMatchesDesc perFile₂.flatten := by
    have hp : List.Perm (sortMatchesDesc perFile₁.flatten) (sortMatchesDesc perFile₂.flatten) :=
      (perm_sortMatchesDesc _).trans (hj.trans (perm_sortMatchesDesc _).symm)
    have hn1 : ((sortMatchesDesc perFile₁.flatten).map fun m => m.Message.Timestamp).Nodup :=
      (((perm_sortMatchesDesc perFile₁.flatten).map _).symm).nodup hnodup
    have hn2 : ((sortMatchesDesc perFile₂.flatten).map fun m => m.Message.Timestamp).Nodup :=
      ((((perm_sortMatchesDesc perFile₂.flatten).trans hj.symm).map _).symm).nodup hnodup
    have hs1 : (sortMatchesDesc perFile₁.flatten).Pairwise tsGT :=
      pairwise_tsGT_of_sorted_nodup _ (pairwise_sortMatchesDesc _) hn1
    have hs2 : (sortMatchesDesc perFile₂.flatten).Pairwise tsGT :=
      pairwise_tsGT_of_sorted_nodup _ (pairwise_sortMatchesDesc _) hn2
    exact List.eq_of_perm_of_sorted hp hs1 hs2
  simp only [regexSearchGather]
  rw [hsort]

theorem regexSearch_order_deterministic_witness :
    regexSearchGather [[matchA], [matchC]] 20 = regexSearchGather [[matchC], [matchA]] 20 :=
  regexSearch_order_deterministic_of_distinct_timestamps [[matchA], [matchC]]
    [[matchC], [matchA]] 20 (List.Perm.swap [matchC] [matchA] []) (by decide)

/-! ### Claim C6 -/

/-- C6 — Sort-and-limit contract: for positive `MaxResults`, the result
of the fan-in/sort/limit stage of `regexSearch` is sorted by message
timestamp in non-increasing lexical order, has length at most
`MaxResults`, and is a prefix-truncation of the global sort of *all*
per-file match lists merged together (merge happens before sorting and
truncation). -/
theorem regexSearch_sorted_and_limited (perFile : List (List Match)) (maxResults : Int)
    (hpos : 0 < maxResults) :
    (regexSearchGather perFile maxResults).Pairwise tsGE
    ∧ ((regexSearchGather perFile maxResults).length : Int) ≤ maxResults
    ∧ ∃ n, regexSearchGather perFile maxResults =
        (sortMatchesDesc perFile.flatten).take n := by
  unfold regexSearchGather
  by_cases h : ((sortMatchesDesc perFile.flatten).length : Int) > maxResults
  · simp only [if_pos h]
    refine ⟨(pairwise_sortMatchesDesc _).sublist (List.take_sublist _ _), ?_,
      ⟨maxResults.toNat, rfl⟩⟩
    have hlen : (List.take maxResults.toNat (sortMatchesDesc perFile.flatten)).length ≤
        maxResults.toNat := by
      simp [List.length_take]
    omega
  · simp only [if_neg h]
    refine ⟨pairwise_sortMatchesDesc _, not_lt.mp h, ?_⟩
    exact ⟨(sortMatchesDesc perFile.flatten).length, by simp⟩

theorem regexSearch_sorted_and_limited_witness :
    (regexSearchGather [[matchA], [matchC]] 20).Pairwise tsGE
    ∧ ((regexSearchGather [[matchA], [matchC]] 20).length : Int) ≤ 20
    ∧ ∃ n, regexSearchGather [[matchA], [matchC]] 20 =
        (sortMatchesDesc ([[matchA], [matchC]] : List (List Match)).flatten).take n :=
  regexSearch_sorted_and_limited [[matchA], [matchC]] 20 (by decide)

/-! ### Claim C7 -/

/-- C7 — Load-on-corruption fallback: for every project name and every
filesystem/gob outcome, `loadIndex` returns a well-formed `Index`: its
`Files` map is never nil; when the stored file is absent or unreadable
it returns the empty index carrying the given project name; when gob
decoding fails it likewise returns a *fresh* empty index — the possibly
partially-overwritten decode target is discarded, never returned; and
when decoding succeeds it returns exactly the decoded contents (with the
given project name surviving if the stream carried none).  No branch
returns an error. -/
theorem loadIndex_total_fallback (project : String) (fs : OpenResult) :
    (loadIndex project fs).Files ≠ none
    ∧ (fs = .openErr → loadIndex project fs = freshIndex project)
    ∧ (∀ g, fs = .opened (.errAfter g) → loadIndex project fs = freshIndex project)
    ∧ (∀ entries files projectField, fs = .opened (.ok entries files projectField) →
        loadIndex project fs =
          { Entries := entries, Files := some files,
            Project := projectField.getD project }) := by
  refine ⟨?_, ?_, ?_, ?_⟩
  · cases fs with
    | openErr => simp [loadIndex, freshIndex]
    | opened g => cases g <;> simp [loadIndex, freshIndex]
  · rintro rfl; rfl
  · rintro g rfl; rfl
  · rintro entries files projectField rfl; rfl

/-- A garbled decode target: what `idx` may look like after a failed
`gob` decode has partially overwritten it. -/
def garbledC7 : Index :=
  { Entries := [], Files := none, Project := "junk" }

theorem loadIndex_total_fallback_witness :
    (loadIndex "p" (.opened (.errAfter garbledC7))).Files ≠ none
    ∧ loadIndex "p" (.opened (.errAfter garbledC7)) = freshIndex "p" :=
  ⟨(loadIndex_total_fallback "p" (.opened (.errAfter garbledC7))).1,
   (loadIndex_total_fallback "p" (.opened (.errAfter garbledC7))).2.2.1 garbledC7 rfl⟩

/-! ### Claim C9 -/

theorem refLoop_eq_filter (fpath : String) :
    ∀ (entries kept : List IndexEntry),
      refLoop fpath entries kept =
        kept ++ entries.filter fun e => decide (e.FilePath ≠ fpath) := by
  intro entries
  induction entries with
  | nil => intro kept; simp [refLoop]
  | cons e rest ih =>
    intro kept
    by_cases he : e.FilePath ≠ fpath
    · simp [refLoop, he, ih, List.filter_cons]
    · simp [refLoop, he, ih, List.filter_cons]

/-- C9 — Eviction frame property: `removeEntriesForFile` returns exactly
the entries whose `FilePath` differs from the given path — a plain
filter of the input list, so entries for other files are kept unchanged,
in their original relative order, and nothing else is dropped. -/
theorem removeEntriesForFile_eq_filter (entries : List IndexEntry) (fpath : String) :
    removeEntriesForFile entries fpath =
      entries.filter fun e => decide (e.FilePath ≠ fpath) := by
  unfold removeEntriesForFile
  simpa using refLoop_eq_filter fpath entries []

/-! ### Claim C8 -/

theorem keepEntry_eq_some_iff (opts : SearchOpts) (parseTs : String → Option Int)
    (cutoff : Option Int) (cosSim : List ℚ → List ℚ → ℚ) (queryVec : List ℚ)
    (entry : IndexEntry) (p : IndexEntry × ℚ) :
    keepEntry opts parseTs cutoff cosSim queryVec entry = some p ↔
      ¬(opts.Role ≠ "both" ∧ entry.Role ≠ opts.Role)
      ∧ ageDrops parseTs cutoff entry.Timestamp = false
      ∧ cosSim queryVec entry.Vector > 3/10
      ∧ p = (entry, cosSim queryVec entry.Vector) := by
  unfold keepEntry
  by_cases h1 : opts.Role ≠ "both" ∧ entry.Role ≠ opts.Role
  · simp [h1]
  · by_cases h2 : ageDrops parseTs cutoff entry.Timestamp
    · simp [h1, h2]
    · by_cases h3 : cosSim queryVec entry.Vector > 3/10
      · simp [h1, h2, h3, eq_comm]
      · simp [h1, h2, h3]

/-- C8 — Strict similarity threshold: an entry that passes the role and
age filters contributes a candidate if and only if its (abstracted)
cosine similarity to the query vector is strictly greater than `3/10`:
similarity exactly `3/10` or below is excluded, anything above is
included. -/
theorem semanticSearch_threshold_strict (opts : SearchOpts)
    (parseTs : String → Option Int) (cutoff : Option Int)
    (cosSim : List ℚ → List ℚ → ℚ) (queryVec : List ℚ)
    (entries : List IndexEntry) (entry : IndexEntry)
    (hrole : ¬(opts.Role ≠ "both" ∧ entry.Role ≠ opts.Role))
    (hage : ageDrops parseTs cutoff entry.Timestamp = false) :
    (∃ p ∈ collectCandidates opts parseTs cutoff cosSim queryVec entries, p.1 = entry)
      ↔ entry ∈ entries ∧ cosSim queryVec entry.Vector > 3/10 := by
  constructor
  · rintro ⟨p, hp, hpe⟩
    rcases List.mem_filterMap.mp hp with ⟨a, ha, hk⟩
    rcases (keepEntry_eq_some_iff opts parseTs cutoff cosSim queryVec a p).mp hk with
      ⟨-, -, hsim, rfl⟩
    have : a = entry := hpe
    subst this
    exact ⟨ha, hsim⟩
  · rintro ⟨hmem, hsim⟩
    refine ⟨(entry, cosSim queryVec entry.Vector),
      List.mem_filterMap.mpr ⟨entry, hmem, ?_⟩, rfl⟩
    exact (keepEntry_eq_some_iff opts parseTs cutoff cosSim queryVec entry _).mpr
      ⟨hrole, hage, hsim, rfl⟩

def entryC8 : IndexEntry :=
  { SessionID := "s", MsgIndex := 0, Role := "user", Timestamp := "", Preview := "p",
    FilePath := "f", Vector := [] }

def optsC8 : SearchOpts :=
  { Role := "both", MaxResults := 10, MaxDays := 0, Before := 0, After := 0,
    ListOnly := false }

theorem semanticSearch_threshold_strict_witness :
    (¬ ∃ p ∈ collectCandidates optsC8 (fun _ => none) none (fun _ _ => 29/100) []
        [entryC8], p.1 = entryC8)
    ∧ (¬ ∃ p ∈ collectCandidates optsC8 (fun _ => none) none (fun _ _ => 30/100) []
        [entryC8], p.1 = entryC8)
    ∧ (∃ p ∈ collectCandidates optsC8 (fun _ => none) none (fun _ _ => 31/100) []
        [entryC8], p.1 = entryC8) := by
  have hrole : ¬(optsC8.Role ≠ "both" ∧ entryC8.Role ≠ optsC8.Role) := by
    simp [optsC8]
  have hage : ageDrops (fun _ => none) none entryC8.Timestamp = false := rfl
  refine ⟨?_, ?_, ?_⟩
  · intro hex
    have h := (semanticSearch_threshold_strict optsC8 (fun _ => none) none
      (fun _ _ => 29/100) [] [entryC8] entryC8 hrole hage).mp hex
    exact absurd h.2 (by norm_num)
  · intro hex
    have h := (semanticSearch_threshold_strict optsC8 (fun _ => none) none
      (fun _ _ => 30/100) [] [entryC8] entryC8 hrole hage).mp hex
    exact absurd h.2 (by norm_num)
  · exact (semanticSearch_threshold_strict optsC8 (fun _ => none) none
      (fun _ _ => 31/100) [] [entryC8] entryC8 hrole hage).mpr
      ⟨by simp, by norm_num⟩
